import Mathlib

/-!
Verification of the RCAttr columnar attribute controller
(`storage/stonedb/core/rc_attr.cpp`).

Machine integers of the source are embedded as `Int`/`Nat`; byte strings
(`types::BString`) as `List Nat`; fallible paths return sentinels exactly as
the source does.  Each operation is translated from the corresponding C++
function; external collaborators that are declared but not defined in the
reviewed source (dpn.h, Pack, FTree, the caches) are modelled from the
specification, and each such definition says so in its doc comment.
-/

namespace StoneDB

/-- Modelled from the spec: the signed 64-bit `+INF_64` sentinel
(`common/common_definitions.h` is outside the reviewed source; the spec
describes `min`/`max` as signed 64-bit with `±INF_64` sentinels). -/
def PLUS_INF_64 : Int := 2 ^ 63 - 1

/-- Modelled from the spec: the signed 64-bit `-INF_64` sentinel. -/
def MINUS_INF_64 : Int := -(2 ^ 63)

/-- Modelled from the spec: the 64-bit null sentinel returned by read paths. -/
def NULL_VALUE_64 : Int := -(2 ^ 63) + 1

/-- Modelled from the spec: the 32-bit null sentinel returned by
`EncodeValue_T` when a string is absent and `new_val` is false. -/
def NULL_VALUE_32 : Int := -(2 ^ 31)

/-- Modelled from the spec: `SHORT_MAX`, the largest signed 16-bit value,
used in the conservative overflow guard of `GetSum`. -/
def SHORT_MAX : Int := 32767

/-- Modelled from the spec: the on-disk address sentinel meaning
"trivial/absent pack body" (`addr = DPN_INVALID_ADDR`). -/
def DPN_INVALID_ADDR : Nat := 2 ^ 64 - 1

/-- Modelled from the spec: one reference in the tagged pack-pointer word
(`tag_one = 1`, the low bits of the aligned pointer hold the count). -/
def tag_one : Nat := 1

/-- Modelled from the spec: the "a loader is in flight" marker of the tagged
pack-pointer word, distinct from zero and from every tagged pointer value
(no aligned non-null pointer plus a one-unit count equals it). -/
def loading_flag : Nat := 1

/-- Data Pack Node: the fixed per-pack metadata record.  The record layout is
modelled from the spec (`dpn.h` is outside the reviewed source): flags, row
and null counts, integer statistics `min_i`/`max_i`/`sum_i`, 8-byte string
prefixes `min_s`/`max_s`, the visibility interval, the on-disk location, the
shadowed predecessor `base` and the atomic tagged pointer word `pack_ptr`. -/
structure DPN where
  used : Bool := false
  isLocal : Bool := false
  synced : Bool := true
  nr : Nat := 0
  nn : Nat := 0
  min_i : Int := 0
  max_i : Int := 0
  sum_i : Int := 0
  min_s : List Nat := List.replicate 8 0
  max_s : List Nat := List.replicate 8 0
  xmin : Nat := 0
  xmax : Nat := 0
  addr : Nat := DPN_INVALID_ADDR
  len : Nat := 0
  base : Option Nat := none
  pack_ptr : Nat := 0
deriving Repr, DecidableEq

/-- Modelled from the spec: a DPN all of whose rows are null
(pack status `NULLS_ONLY`; per-pack `nn` equals `nr`). -/
def DPN.NullOnly (d : DPN) : Bool := d.nn == d.nr

/-- Modelled from the spec: a trivial DPN has no materialized pack body;
`addr = DPN_INVALID_ADDR` means trivial/absent. -/
def DPN.Trivial (d : DPN) : Bool := d.addr == DPN_INVALID_ADDR

/-- The projection of the column type consumed by `GetSum`: whether the
column is a string type and whether it is floating point
(`Type().IsString()` / `Type().IsFloat()`). -/
structure ColTypeFlags where
  isString : Bool
  isFloat : Bool
deriving Repr, DecidableEq

/-- `RCAttr::GetSum` (rc_attr.cpp:516-528) for one pack.  `nonnegative` is the
caller's out-parameter, returned unchanged on the sentinel paths and set to
`dpn.min_i >= 0` otherwise.  The pack status test reduces to `DPN.NullOnly`
for a pack index in range. -/
def getSum (ty : ColTypeFlags) (d : DPN) (nonnegative : Bool) : Int × Bool :=
  if d.NullOnly ∨ ty.isString then (NULL_VALUE_64, nonnegative)
  else if ¬ty.isFloat = true ∧
      (d.min_i < MINUS_INF_64.tdiv (SHORT_MAX + 1)
        ∨ PLUS_INF_64.tdiv (SHORT_MAX + 1) < d.max_i) then
    (NULL_VALUE_64, nonnegative)
  else (d.sum_i, decide (0 ≤ d.min_i))

/-- The prefix scan loop of `RCAttr::GetPrefixLength` (rc_attr.cpp:714-716):
advance while the position is below 8, the `min_s` byte is non-NUL and the
`min_s` and `max_s` bytes agree.  The two arguments are the 8-byte `min_s`
and `max_s` fields, so running off the lists is the `dif_pos < 8` bound. -/
def prefixScan : List Nat → List Nat → Nat
  | a :: as, b :: bs => if a ≠ 0 ∧ a = b then prefixScan as bs + 1 else 0
  | _, _ => 0

/-- `RCAttr::GetPrefixLength` (rc_attr.cpp:708-719): zero for a nulls-only
pack, else the prefix scan over `min_s`/`max_s`. -/
def getPrefixLength (d : DPN) : Nat :=
  if d.NullOnly then 0 else prefixScan d.min_s d.max_s

/-- Length of the longest common prefix of two byte strings.  This is the
specification-side notion ("the common prefix of the 8-byte `min_s` and
`max_s` fields") that `getPrefixLength` is compared against. -/
def commonPrefixLen : List Nat → List Nat → Nat
  | a :: as, b :: bs => if a = b then commonPrefixLen as bs + 1 else 0
  | _, _ => 0

/-- Outcome of one `LockPackForUse` attempt: `noPack` is the early return for
a trivial non-local DPN, `locked` a successful reference acquisition,
`raised` a rethrown load failure, and `wouldBlock` the 5 ms sleep-and-retry
taken while another thread holds `loading_flag`. -/
inductive LockOutcome
  | noPack
  | locked
  | raised
  | wouldBlock
deriving Repr, DecidableEq

/-- `RCAttr::LockPackForUse` (rc_attr.cpp:721-757) as a single-step transition
on the (base-resolved) DPN.  A local DPN is first resolved through `base` to
the committed DPN (lines 722-723); the argument here is that resolved DPN.
`fetch = some p` models the cache fetch returning a Pack object at address
`p`; `fetch = none` models the fetch throwing, in which case the catch blocks
reset the tagged word to 0 and rethrow (lines 738-746). -/
def lockPackForUse (d : DPN) (fetch : Option Nat) : DPN × LockOutcome :=
  if d.Trivial ∧ ¬d.isLocal = true then (d, LockOutcome.noPack)
  else if d.pack_ptr ≠ 0 ∧ d.pack_ptr ≠ loading_flag then
    ({ d with pack_ptr := d.pack_ptr + tag_one }, LockOutcome.locked)
  else if d.pack_ptr = 0 then
    match fetch with
    | some p => ({ d with pack_ptr := p + tag_one }, LockOutcome.locked)
    | none => ({ d with pack_ptr := 0 }, LockOutcome.raised)
  else (d, LockOutcome.wouldBlock)

/-! ### Append path: PreparePackForLoad / LoadData (rc_attr.cpp:803-837)

The state kept here is the projection of the column relevant to the row
accounting: `hdr.nr` and the per-pack row counts of the DPNs listed in
`m_idx`.  The pack list is kept with the most recently allocated pack at the
head (the source appends at the tail of `m_idx`; the logical pack order is
the reverse of this list), so `push_back` is a cons and `get_last_dpn` is the
head. -/

/-- The row-count projection of the attribute state used by the append path:
`hdr.nr` plus the `nr` field of every DPN in `m_idx`, most recent first. -/
structure LoadState where
  hdr_nr : Nat
  packs : List Nat
deriving Repr, DecidableEq

/-- `RCAttr::PreparePackForLoad` (rc_attr.cpp:803-811): if `m_idx` is empty or
the last pack is full (`nr = 1 <<< pss`), allocate a fresh DPN (row count 0)
and append its index; otherwise `CopyPackForWrite` shadows the last DPN with
a local copy carrying the same row count.  The returned flag is true exactly
when a new DPN was appended. -/
def preparePackForLoad (pss : Nat) (packs : List Nat) : List Nat × Bool :=
  match packs with
  | [] => (0 :: packs, true)
  | lastNr :: _ => if lastNr = 2 ^ pss then (0 :: packs, true) else (packs, false)

/-- `RCAttr::LoadData` (rc_attr.cpp:813-837) at the row-count level: prepare
the target pack, load the batch of `c` values into it, and advance `hdr.nr`
by the batch size (line 834).  The advance of the target DPN's `nr` by the
batch size happens inside `LoadDataPackN`/`LoadDataPackS` and
`Pack::LoadValues` (the pack bodies are external); it is modelled from the
spec, which has both dispatch paths add the batch's row count to the pack. -/
def loadData (pss : Nat) (s : LoadState) (c : Nat) : LoadState :=
  match (preparePackForLoad pss s.packs).1 with
  | [] => { hdr_nr := s.hdr_nr + c, packs := [] }
  | lastNr :: rest => { hdr_nr := s.hdr_nr + c, packs := (lastNr + c) :: rest }

/-- A sequence of `LoadData` calls, one batch size per call. -/
def loadDataSeq (pss : Nat) (s : LoadState) (cs : List Nat) : LoadState :=
  cs.foldl (loadData pss) s

/-- Remaining capacity of the pack that the next `LoadData` call will fill:
the full `1 <<< pss` when the column is empty or the last pack is full (a
fresh pack is allocated), else the unfilled part of the last pack. -/
def freeSpace (pss : Nat) (packs : List Nat) : Nat :=
  match packs with
  | [] => 2 ^ pss
  | l :: _ => if l = 2 ^ pss then 2 ^ pss else 2 ^ pss - l

/-- The loader regime under which the append invariant holds: every batch is
non-empty and fits into the pack it is loaded into. -/
def validBatches (pss : Nat) : LoadState → List Nat → Bool
  | _, [] => true
  | s, c :: cs =>
    decide (0 < c) && decide (c ≤ freeSpace pss s.packs)
      && validBatches pss (loadData pss s c) cs

/-- The invariant maintained by `loadData`: `hdr.nr` is the total of the
per-pack row counts, every pack but the most recent is exactly full, and the
most recent pack is non-empty and within capacity. -/
def LoadInv (pss : Nat) (s : LoadState) : Prop :=
  s.hdr_nr = s.packs.sum
    ∧ (∀ p ∈ s.packs.tail, p = 2 ^ pss)
    ∧ (∀ l rest, s.packs = l :: rest → 0 < l ∧ l ≤ 2 ^ pss)

/-! ### MinS and CompareAndSetCurrentMin (rc_attr.cpp:1037-1096) -/

/-- Lexicographic byte-string comparison, the `CompareWith < 0` test of
`types::BString` (external to the reviewed source; modelled from the spec's
"smallest selected non-null string under the column collation").  The
collation branch of the source computes the same kind of strict-less test
through `CollationStrCmp`. -/
def bstringLess : List Nat → List Nat → Bool
  | [], [] => false
  | [], _ :: _ => true
  | _ :: _, [] => false
  | a :: as, b :: bs => if a < b then true else if b < a then false else bstringLess as bs

/-- `RCAttr::CompareAndSetCurrentMin` (rc_attr.cpp:1037-1049).  `min` is
passed by reference, so the updated minimum is the return value here;
`set` is passed BY VALUE, so the assignment `set = true` (line 1047) mutates
only the callee's local copy and the caller's variable is never changed.
The candidate replaces `min` when `!set || res` holds, where `res` is the
strict-less comparison. -/
def compareAndSetCurrentMin (tstmp min : List Nat) (set : Bool) : List Nat :=
  let res := bstringLess tstmp min
  if !set || res then tstmp else min

/-- The `PackType::STR` row loop of `RCAttr::MinS` (rc_attr.cpp:1084-1091),
specialized to a non-dictionary string column: the filter's selected rows
are visited in row order; each selected non-null value is passed to
`CompareAndSetCurrentMin` together with the caller's `set` variable, which
stays `false` forever because the callee receives it by value
(line 1068 initializes it to false and nothing ever writes it back). -/
def minSLoop : List (Option (List Nat)) → List Bool → List Nat → List Nat
  | r :: rs, b :: bs, mn =>
    if b then
      match r with
      | some v => minSLoop rs bs (compareAndSetCurrentMin v mn false)
      | none => minSLoop rs bs mn
    else minSLoop rs bs mn
  | _, _, mn => mn

/-- `RCAttr::MinS` over a string column given the rows (`none` = null) and
the filter bitmap, starting from the null `BString` (modelled as `[]`). -/
def minS_STR (rows : List (Option (List Nat))) (f : List Bool) : List Nat :=
  minSLoop rows f []

/-- The selected non-null candidates that `MinS` examines, in row order;
the smallest of these is what the specification says `MinS` returns. -/
def minSCandidates : List (Option (List Nat)) → List Bool → List (List Nat)
  | r :: rs, b :: bs =>
    if b then
      match r with
      | some v => v :: minSCandidates rs bs
      | none => minSCandidates rs bs
    else minSCandidates rs bs
  | _, _ => []

/-! ### EncodeValue64 integer scale reconciliation (rc_attr.cpp:689-701) -/

/-- The first `while` loop of `RCAttr::EncodeValue64` (rc_attr.cpp:690-695):
while the value's scale is below the column scale, saturate to `±INF_64`
when another multiply-by-10 could overflow, else multiply by 10.  `Int.tdiv`
is C++ signed division (truncation toward zero).  The `rounded` accumulator
is threaded through to record that these early returns leave it untouched. -/
def scaleUpLoop (rounded : Bool) : Int → Nat → Int × Bool
  | vv, 0 => (vv, rounded)
  | vv, k + 1 =>
    if vv < MINUS_INF_64.tdiv 10 then (MINUS_INF_64, rounded)
    else if PLUS_INF_64.tdiv 10 < vv then (PLUS_INF_64, rounded)
    else scaleUpLoop rounded (vv * 10) k

/-- The second `while` loop of `RCAttr::EncodeValue64` (rc_attr.cpp:696-700):
while the value's scale exceeds the column scale, set `rounded` when the
dropped remainder is non-zero, then divide by 10 (C++ truncated division and
remainder, `Int.tdiv`/`Int.tmod`). -/
def scaleDownLoop : Bool → Int → Nat → Int × Bool
  | rounded, vv, 0 => (vv, rounded)
  | rounded, vv, k + 1 =>
    scaleDownLoop (rounded || decide (vv.tmod 10 ≠ 0)) (vv.tdiv 10) k

/-- The integer-source scale-reconciliation tail of `RCAttr::EncodeValue64`
(rc_attr.cpp:689-701): value `vv` at scale `vp` is brought to the column
scale `dplaces`.  The two loops are mutually exclusive: when `vp < dplaces`
only the multiply loop runs (or returns a sentinel early), otherwise only
the divide loop runs. -/
def encodeValue64Scale (vv : Int) (vp dplaces : Nat) : Int × Bool :=
  if vp < dplaces then scaleUpLoop false vv (dplaces - vp)
  else scaleDownLoop false vv (vp - dplaces)

/-! ### SaveVersion (rc_attr.cpp:255-312) -/

/-- The persisted column version header `COL_VER_HDR` (field list as created
by `RCAttr::Create`, rc_attr.cpp:90-102). -/
structure COL_VER_HDR where
  nr : Nat := 0
  nn : Nat := 0
  np : Nat := 0
  auto_inc_next : Nat := 0
  min : Int := 0
  max : Int := 0
  dict_ver : Nat := 0
  unique : Bool := false
  unique_updated : Bool := false
  natural_size : Nat := 0
  compressed_size : Nat := 0
deriving Repr, DecidableEq

/-- The attribute state consumed by `SaveVersion`: the header, the DPN record
of every entry of `m_idx` (in index order), and the `no_change` flag. -/
structure AttrVersionState where
  hdr : COL_VER_HDR
  m_idx : List DPN
  no_change : Bool
deriving Repr, DecidableEq

/-- The per-DPN body of the `SaveVersion` loop (rc_attr.cpp:258-277): a local
DPN that is trivial or already synced has its loaded Pack (if any, i.e. if
the tagged word projects to a non-null pointer) dropped from the cache and
its tagged word cleared; otherwise `Pack::Save` writes the pack body
(external; it marks the DPN synced, and the `addr`/`len` fields here stand
for their post-save values), the pack is unlocked and the word cleared.
Non-local DPNs are untouched. -/
def saveVersionDpn (d : DPN) : DPN :=
  if d.isLocal then
    if d.Trivial ∨ d.synced then
      if d.pack_ptr ≠ 0 then { d with pack_ptr := 0 } else d
    else { d with synced := true, pack_ptr := 0 }
  else d

/-- The `std::accumulate` of `SaveVersion` (rc_attr.cpp:294-300): sum of
`dpn.len` over the DPNs of `m_idx` whose `addr` is not `DPN_INVALID_ADDR`. -/
def compressedSizeAcc (dpns : List DPN) : Nat :=
  dpns.foldl (fun sum d => if d.addr != DPN_INVALID_ADDR then sum + d.len else sum) 0

/-- `RCAttr::SaveVersion` (rc_attr.cpp:255-312).  The loop clears the local
DPNs' pack state and lowers `no_change` if any local DPN exists; if nothing
changed the function returns false and writes no version file (`none`
here); otherwise, for a non-empty column, `hdr.np` and `hdr.compressed_size`
are recomputed and the header followed by the index is written (`some`).
`SaveFilters`, the dictionary save and the `unique` bits involve external
objects and do not affect the persisted `np`/`compressed_size`. -/
def saveVersion (s : AttrVersionState) : Option (COL_VER_HDR × List DPN) × AttrVersionState :=
  let anyLocal := s.m_idx.any (fun d => d.isLocal)
  let no_change1 := s.no_change && !anyLocal
  let m_idx1 := s.m_idx.map saveVersionDpn
  if no_change1 then (none, { s with m_idx := m_idx1, no_change := no_change1 })
  else
    let hdr1 :=
      if s.m_idx.isEmpty then s.hdr
      else
        { s.hdr with
          np := m_idx1.length
          compressed_size := compressedSizeAcc m_idx1 }
    (some (hdr1, m_idx1), { hdr := hdr1, m_idx := m_idx1, no_change := no_change1 })

/-! ### Dictionary copy-on-write (rc_attr.cpp:615-652 and 957-973) -/

/-- The dictionary-relevant state of the controller: the FTree content (the
dictionary strings indexed by their codes), the FTree's `Changed()` flag,
`hdr.dict_ver`, and the versions installed into the engine cache by
`PutObject`.  The FTree itself is outside the reviewed source; it is
modelled from the spec: `GetEncodedValue` is dictionary lookup (negative
when absent), `Add` appends the string at the next code and marks the tree
changed, `Clone` copies the content with the changed flag clear. -/
structure DictState where
  dict : List (List Nat)
  changed : Bool
  dict_ver : Nat
  cacheVers : List Nat
deriving Repr, DecidableEq

/-- The string branch of `RCAttr::EncodeValue_T` (rc_attr.cpp:618-639); the
identical copy-on-write block appears in `RCAttr::UpdateData`
(rc_attr.cpp:957-971).  A present string returns its code.  A missing
string with `new_val` false returns `NULL_VALUE_32`.  A missing string with
`new_val` true first clones the dictionary, bumps `hdr.dict_ver` and
installs the clone in the cache under the new version — but only when the
dictionary is not already changed in this transaction — and then adds the
string, returning its new code. -/
def encodeValue_T (st : DictState) (s : List Nat) (new_val : Bool) : Int × DictState :=
  match st.dict.findIdx? (fun t => t == s) with
  | some code => ((code : Int), st)
  | none =>
    if !new_val then (NULL_VALUE_32, st)
    else
      let st1 :=
        if !st.changed then
          { st with
            dict_ver := st.dict_ver + 1
            cacheVers := (st.dict_ver + 1) :: st.cacheVers }
        else st
      ((st1.dict.length : Int), { st1 with dict := st1.dict ++ [s], changed := true })

/-- A sequence of `EncodeValue_T` calls within one transaction, each given a
string and its `new_val` flag. -/
def encodeValueSeq (st : DictState) : List (List Nat × Bool) → DictState
  | [] => st
  | (s, nv) :: ops => encodeValueSeq (encodeValue_T st s nv).2 ops

/-! ### UpdateData header refresh (rc_attr.cpp:975-1004) -/

/-- The pack representation of the column (`common::PackType`). -/
inductive PackType
  | INT
  | STR
deriving Repr, DecidableEq

/-- `std::numeric_limits of int64_t :: max()`, the seed of the min
recomputation loop (rc_attr.cpp:987). -/
def int64Max : Int := 2 ^ 63 - 1

/-- `std::numeric_limits of int64_t :: min()`, the seed of the max
recomputation loop (rc_attr.cpp:997). -/
def int64Min : Int := -(2 ^ 63)

/-- The header-statistics tail of `RCAttr::UpdateData` (rc_attr.cpp:975-1004).
`dpn_save` is the DPN snapshot taken before `Pack::UpdateValue` (line 951)
and `dpn1` the DPN after it refreshed the per-pack statistics (the pack body
is external); `dpns` holds the DPN record of every entry of `m_idx` after
the update.  `hdr.nn` is adjusted by the pack's null-count delta; then, only
for `PackType::INT`, `hdr.min`/`hdr.max` are extended directly when the
pack's new extreme widens the column range and recomputed by a scan over all
non-nulls-only DPNs otherwise.  For `PackType::STR` the min/max branch is
the empty else (rc_attr.cpp:1002-1003). -/
def updateDataHdr (pt : PackType) (hdr : COL_VER_HDR) (dpns : List DPN)
    (dpn_save dpn1 : DPN) : COL_VER_HDR :=
  let nn1 := hdr.nn - dpn_save.nn + dpn1.nn
  match pt with
  | PackType.STR => { hdr with nn := nn1 }
  | PackType.INT =>
    let min1 :=
      if dpn1.min_i < hdr.min then dpn1.min_i
      else dpns.foldl
        (fun m d => if ¬d.NullOnly = true then if d.min_i < m then d.min_i else m else m)
        int64Max
    let max1 :=
      if hdr.max < dpn1.max_i then dpn1.max_i
      else dpns.foldl
        (fun m d => if ¬d.NullOnly = true then if m < d.max_i then d.max_i else m else m)
        int64Min
    { hdr with nn := nn1, min := min1, max := max1 }

/-! ### PostCommit (rc_attr.cpp:314-335) -/

/-- The state touched by `PostCommit`: the `no_change` flag, the
ColumnShare's DPN arena together with the `m_idx` positions into it, the
controller's version, the transaction handle, and the log of deferred file
removals (tagged 0 = version file, 1 = Bloom, 2 = CMap, 3 = Hist, each with
the version it removes). -/
structure AttrCommitState where
  no_change : Bool
  arena : List DPN
  m_idx : List Nat
  m_version : Nat
  m_tx : Option Nat
  deferred : List (Nat × Nat)
deriving Repr, DecidableEq

/-- The local-DPN finalization loop of `PostCommit` (rc_attr.cpp:316-322):
each local DPN in `m_idx` is cleared of its local flag and, if it shadows a
base DPN, the base's `xmax` is set to the engine's `MaxXID()`. -/
def postCommitDpns (maxXID : Nat) : List DPN → List Nat → List DPN
  | arena, [] => arena
  | arena, i :: is =>
    match arena[i]? with
    | none => postCommitDpns maxXID arena is
    | some d =>
      if d.isLocal then
        let arena1 := arena.set i { d with isLocal := false }
        let arena2 :=
          match d.base with
          | none => arena1
          | some b =>
            match arena1[b]? with
            | none => arena1
            | some bd => arena1.set b { bd with xmax := maxXID }
        postCommitDpns maxXID arena2 is
      else postCommitDpns maxXID arena is

/-- `RCAttr::PostCommit` (rc_attr.cpp:314-335): when a change was made,
finalize the local DPNs, defer removal of the previous version file and of
the per-filter files (guarded by the share's filter-presence flags), and
advance `m_version` to the writer's transaction id; in every case clear the
transaction handle. -/
def postCommit (s : AttrCommitState) (txid maxXID : Nat)
    (hasBloom hasCmap hasHist : Bool) : AttrCommitState :=
  if s.no_change then { s with m_tx := none }
  else
    { no_change := s.no_change
      arena := postCommitDpns maxXID s.arena s.m_idx
      m_idx := s.m_idx
      m_version := txid
      m_tx := none
      deferred :=
        s.deferred ++ [(0, s.m_version)]
          ++ (if hasBloom then [(1, s.m_version)] else [])
          ++ (if hasCmap then [(2, s.m_version)] else [])
          ++ (if hasHist then [(3, s.m_version)] else []) }

/-- The concrete DPN of the `GetSum` float counterexample: a non-null pack of
a floating-point column whose `min_i` trips the overflow guard. -/
def getSumFloatCexDpn : DPN :=
  { nr := 1, nn := 0, min_i := MINUS_INF_64, max_i := 0, sum_i := 42 }

/-- The concrete DPN of the `GetPrefixLength` counterexample: a non-null pack
whose `min_s` and `max_s` are both entirely NUL (the stored prefix of the
empty string). -/
def prefixCexDpn : DPN := { nr := 1, nn := 0 }

/-- A concrete non-null DPN whose stored prefixes agree on the first byte and
differ at the second, used to witness the `GetPrefixLength` theorem. -/
def prefixWitnessDpn : DPN :=
  { nr := 1, nn := 0, min_s := [97, 98, 0, 0, 0, 0, 0, 0],
    max_s := [97, 99, 0, 0, 0, 0, 0, 0] }

/-- A concrete attribute state with no modification: nothing to persist. -/
def saveVersionEmptyState : AttrVersionState :=
  { hdr := {}, m_idx := [], no_change := true }

/-- A concrete attribute state holding one local DPN with a written pack of
7 compressed bytes at address 5. -/
def saveVersionWitnessState : AttrVersionState :=
  { hdr := {}, m_idx := [{ isLocal := true, addr := 5, len := 7 }], no_change := true }

/-! ## Theorems -/

theorem prefixScan_eq_trimmed_prefix (as bs : List Nat) :
    prefixScan as bs = commonPrefixLen (as.takeWhile (fun a => a != 0)) bs := by
  induction as generalizing bs with
  | nil => cases bs <;> rfl
  | cons a as ih =>
    cases bs with
    | nil =>
      by_cases ha : a = 0 <;>
        simp [prefixScan, commonPrefixLen, List.takeWhile_cons, ha]
    | cons b bs =>
      by_cases ha : a = 0
      · simp [prefixScan, commonPrefixLen, List.takeWhile_cons, ha]
      · by_cases hab : a = b
        · subst hab
          simp [prefixScan, commonPrefixLen, List.takeWhile_cons, ha, ih]
        · simp [prefixScan, commonPrefixLen, List.takeWhile_cons, ha, hab]

theorem prefixScan_le_length (as bs : List Nat) : prefixScan as bs ≤ as.length := by
  induction as generalizing bs with
  | nil => cases bs <;> simp [prefixScan]
  | cons a as ih =>
    cases bs with
    | nil => simp [prefixScan]
    | cons b bs =>
      by_cases h1 : a = 0
      · simp [prefixScan, h1]
      · by_cases h2 : a = b
        · subst h2
          simpa [prefixScan, h1] using Nat.succ_le_succ (ih bs)
        · simp [prefixScan, h1, h2]

/-- C8 (amended): for a nulls-only pack `GetPrefixLength` returns 0; for any
other pack it returns the length of the common prefix of the NUL-trimmed
`min_s` against `max_s` — the scan stops at the first NUL byte of `min_s` as
well as at the first mismatch — and the result is bounded by 8 when the
stored prefixes are 8 bytes. -/
theorem getPrefixLength_trimmed_common_prefix (d : DPN) :
    (d.NullOnly = true → getPrefixLength d = 0)
    ∧ (d.NullOnly = false →
        getPrefixLength d = commonPrefixLen (d.min_s.takeWhile (fun a => a != 0)) d.max_s)
    ∧ (d.min_s.length = 8 → getPrefixLength d ≤ 8)
    := by
  refine ⟨fun h => by simp [getPrefixLength, h], fun h => ?_, fun h => ?_⟩
  · simp [getPrefixLength, h, prefixScan_eq_trimmed_prefix]
  · unfold getPrefixLength
    split_ifs with hn
    · exact Nat.zero_le 8
    · simpa [h] using prefixScan_le_length d.min_s d.max_s

/-- C8 (counterexample): a non-nulls-only pack whose `min_s` and `max_s` are
both all-NUL: the common prefix of the raw 8-byte fields has length 8, but
`GetPrefixLength` returns 0, refuting the claim that the result is the
common prefix length of the 8-byte fields. -/
theorem getPrefixLength_raw_prefix_cex :
    prefixCexDpn.NullOnly = false
    ∧ getPrefixLength prefixCexDpn = 0
    ∧ commonPrefixLen prefixCexDpn.min_s prefixCexDpn.max_s = 8
    ∧ getPrefixLength prefixCexDpn ≠ commonPrefixLen prefixCexDpn.min_s prefixCexDpn.max_s := by
  decide

/-- C8 (witness): the amended theorem evaluated on a concrete two-byte
prefix pair that differs at the second byte. -/
theorem getPrefixLength_trimmed_common_prefix_witness :
    getPrefixLength prefixWitnessDpn
      = commonPrefixLen (prefixWitnessDpn.min_s.takeWhile (fun a => a != 0))
          prefixWitnessDpn.max_s
    ∧ getPrefixLength prefixWitnessDpn ≤ 8 := by
  have h := getPrefixLength_trimmed_common_prefix prefixWitnessDpn
  exact ⟨h.2.1 (by decide), h.2.2 (by decide)⟩

/-- C4 (amended): provided `dpn.sum_i` does not collide with the sentinel,
`GetSum` returns `NULL_VALUE_64` exactly when the pack is nulls-only, or the
column is a string type, or — only for a non-floating-point column — the
conservative overflow guard on `min_i`/`max_i` trips; otherwise it returns
`dpn.sum_i` and sets `nonnegative` to `dpn.min_i >= 0`. -/
theorem getSum_null_characterization (ty : ColTypeFlags) (d : DPN) (b : Bool)
    (hsum : d.sum_i ≠ NULL_VALUE_64) :
    ((getSum ty d b).1 = NULL_VALUE_64 ↔
      (d.NullOnly = true ∨ ty.isString = true
        ∨ (ty.isFloat = false
            ∧ (d.min_i < MINUS_INF_64.tdiv (SHORT_MAX + 1)
                ∨ PLUS_INF_64.tdiv (SHORT_MAX + 1) < d.max_i))))
    ∧ ((getSum ty d b).1 ≠ NULL_VALUE_64 →
        (getSum ty d b).1 = d.sum_i ∧ (getSum ty d b).2 = decide (0 ≤ d.min_i)) := by
  unfold getSum
  split_ifs with h1 h2
  · refine ⟨iff_of_true rfl ?_, fun hne => absurd rfl hne⟩
    rcases h1 with h | h
    · exact Or.inl h
    · exact Or.inr (Or.inl h)
  · refine ⟨iff_of_true rfl ?_, fun hne => absurd rfl hne⟩
    exact Or.inr (Or.inr ⟨by simpa using h2.1, h2.2⟩)
  · constructor
    · simp only [Bool.not_eq_true] at h1 h2 ⊢
      constructor
      · intro h; exact absurd h hsum
      · intro h
        rcases h with h | h | h
        · exact absurd (Or.inl h) h1
        · exact absurd (Or.inr h) h1
        · exact absurd ⟨by simp [h.1], h.2⟩ h2
    · intro _; exact ⟨rfl, rfl⟩

/-- C4 (counterexample): a floating-point column with a non-null pack whose
`min_i` trips the overflow guard: the guard is skipped because of the
`!Type().IsFloat()` condition and `GetSum` returns `sum_i`, not
`NULL_VALUE_64`, refuting the claim's unconditional guard. -/
theorem getSum_float_guard_cex :
    getSumFloatCexDpn.NullOnly = false
    ∧ getSumFloatCexDpn.min_i < MINUS_INF_64.tdiv (SHORT_MAX + 1)
    ∧ (getSum { isString := false, isFloat := true } getSumFloatCexDpn true).1 = 42
    ∧ (getSum { isString := false, isFloat := true } getSumFloatCexDpn true).1
        ≠ NULL_VALUE_64 := by
  decide

/-- C4 (witness): the amended characterization applied to a concrete
integer column pack with in-range statistics. -/
theorem getSum_null_characterization_witness :
    (getSum { isString := false, isFloat := false }
        { nr := 2, nn := 0, min_i := 1, max_i := 2, sum_i := 3 } false).1 = 3
    ∧ (getSum { isString := false, isFloat := false }
        { nr := 2, nn := 0, min_i := 1, max_i := 2, sum_i := 3 } false).2 = true := by
  have h := getSum_null_characterization { isString := false, isFloat := false }
    { nr := 2, nn := 0, min_i := 1, max_i := 2, sum_i := 3 } false (by decide)
  have h2 := h.2 (by decide)
  exact ⟨by simpa using h2.1, by simpa using h2.2⟩

/-- C5: `LockPackForUse` on a trivial, non-local DPN returns immediately with
the DPN (and hence its tagged word) unchanged; and when the caller wins the
`0 → loading_flag` transition and the cache fetch throws, the tagged word is
reset to 0 and the exception is rethrown, never leaving `loading_flag` or a
stale pointer behind. -/
theorem lockPackForUse_trivial_and_cleanup (d : DPN) (fetch : Option Nat) :
    (d.Trivial = true ∧ ¬d.isLocal = true →
        lockPackForUse d fetch = (d, LockOutcome.noPack))
    ∧ (¬(d.Trivial = true ∧ ¬d.isLocal = true) → d.pack_ptr = 0 → fetch = none →
        (lockPackForUse d fetch).1.pack_ptr = 0
          ∧ (lockPackForUse d fetch).2 = LockOutcome.raised) := by
  constructor
  · intro h; simp [lockPackForUse, h]
  · intro h hp hf
    subst hf
    simp only [Bool.not_eq_true] at h
    simp [lockPackForUse, h, hp]

/-- C5 (witness): the theorem applied to the default (trivial, committed)
DPN and to a non-trivial DPN with an unloaded word and a failing fetch. -/
theorem lockPackForUse_witness :
    lockPackForUse {} none = ({}, LockOutcome.noPack)
    ∧ (lockPackForUse { addr := 0 } none).1.pack_ptr = 0
    ∧ (lockPackForUse { addr := 0 } none).2 = LockOutcome.raised := by
  have h1 := (lockPackForUse_trivial_and_cleanup {} none).1 (by decide)
  have h2 := (lockPackForUse_trivial_and_cleanup { addr := 0 } none).2 (by decide) rfl rfl
  exact ⟨h1, h2.1, h2.2⟩

/-- C9: for a string-typed pack, `UpdateData` leaves `hdr.min` and `hdr.max`
(and every header field other than `nn`) unchanged — the extend-or-recompute
refresh runs only for `PackType::INT` — while `hdr.nn` is adjusted by the
pack's null-count delta for both pack types. -/
theorem updateData_str_frame (hdr : COL_VER_HDR) (dpns : List DPN) (s d1 : DPN) :
    updateDataHdr PackType.STR hdr dpns s d1 = { hdr with nn := hdr.nn - s.nn + d1.nn }
    ∧ (updateDataHdr PackType.STR hdr dpns s d1).min = hdr.min
    ∧ (updateDataHdr PackType.STR hdr dpns s d1).max = hdr.max
    ∧ (s.nn ≤ hdr.nn →
        (updateDataHdr PackType.STR hdr dpns s d1).nn + s.nn = hdr.nn + d1.nn)
    ∧ (updateDataHdr PackType.INT hdr dpns s d1).nn = hdr.nn - s.nn + d1.nn := by
  refine ⟨rfl, rfl, rfl, fun h => ?_, rfl⟩
  show hdr.nn - s.nn + d1.nn + s.nn = hdr.nn + d1.nn
  omega

/-- C9 (witness): the frame property evaluated on a concrete header and
null-count delta. -/
theorem updateData_str_frame_witness :
    (updateDataHdr PackType.STR { nn := 5, min := 3, max := 9 } [] { nn := 1 } { nn := 3 }).nn + 1
      = 5 + 3
    ∧ (updateDataHdr PackType.STR { nn := 5, min := 3, max := 9 } [] { nn := 1 } { nn := 3 }).min
      = 3 := by
  have h := updateData_str_frame { nn := 5, min := 3, max := 9 } [] { nn := 1 } { nn := 3 }
  exact ⟨h.2.2.2.1 (by decide), h.2.1⟩

/-- C10: `PostCommit` sets the transaction handle to null unconditionally,
and when `no_change` is true it performs none of its other effects: the
DPN arena, the index, `m_version`, the deferred removals and the flag itself
are all left unchanged. -/
theorem postCommit_clears_tx_and_frames (s : AttrCommitState) (txid maxXID : Nat)
    (hb hc hh : Bool) :
    (postCommit s txid maxXID hb hc hh).m_tx = none
    ∧ (s.no_change = true →
        postCommit s txid maxXID hb hc hh = { s with m_tx := none }) := by
  constructor
  · unfold postCommit; split_ifs <;> rfl
  · intro h; simp [postCommit, h]

/-- C10 (witness): a no-change commit on a concrete state only nulls the
transaction handle. -/
theorem postCommit_witness :
    postCommit
        { no_change := true, arena := [], m_idx := [], m_version := 3,
          m_tx := some 5, deferred := [] } 7 9 true true true
      = { no_change := true, arena := [], m_idx := [], m_version := 3,
          m_tx := none, deferred := [] } := by
  have h := (postCommit_clears_tx_and_frames
    { no_change := true, arena := [], m_idx := [], m_version := 3,
      m_tx := some 5, deferred := [] } 7 9 true true true).2 rfl
  exact h

/-- C2 (code bug, evaluation at the failing input): with a string column
holding rows "a", "b" and a filter selecting both, `MinS` returns "b" — the
last candidate examined — although the smallest selected candidate is "a":
the caller's `set` flag is never updated (it is passed by value), so
`CompareAndSetCurrentMin` overwrites the running minimum on every call. -/
theorem minS_returns_last_candidate_cex :
    minS_STR [some [97], some [98]] [true, true] = [98]
    ∧ minSCandidates [some [97], some [98]] [true, true] = [[97], [98]]
    ∧ bstringLess [97] [98] = true
    ∧ minS_STR [some [97], some [98]] [true, true] ≠ [97] := by
  decide

theorem sum_eq_length_mul_of_all_eq (cap : Nat) (l : List Nat)
    (h : ∀ p ∈ l, p = cap) : l.sum = l.length * cap := by
  induction l with
  | nil => simp
  | cons x xs ih =>
    have hx := h x (by simp)
    have ihh := ih (fun p hp => h p (by simp [hp]))
    rw [List.sum_cons, hx, ihh, List.length_cons, Nat.succ_mul]
    omega

theorem loadData_inv_step (pss : Nat) (s : LoadState) (c : Nat)
    (hinv : LoadInv pss s) (hc : 0 < c) (hfit : c ≤ freeSpace pss s.packs) :
    LoadInv pss (loadData pss s c) ∧ (loadData pss s c).hdr_nr = s.hdr_nr + c := by
  obtain ⟨hsum, htail, hlast⟩ := hinv
  cases hp : s.packs with
  | nil =>
    rw [hp] at hsum
    simp only [List.sum_nil] at hsum
    refine ⟨⟨?_, ?_, ?_⟩, ?_⟩ <;>
      simp_all [loadData, preparePackForLoad, freeSpace, hp]
  | cons l rest =>
    have hl := hlast l rest hp
    have hrest : ∀ p ∈ rest, p = 2 ^ pss := fun p hmem => htail p (by rw [hp]; exact hmem)
    rw [hp] at hsum
    by_cases hfull : l = 2 ^ pss
    · refine ⟨⟨?_, ?_, ?_⟩, ?_⟩
      · simp [loadData, preparePackForLoad, hp, hfull, hsum]
        omega
      · intro p hmem
        simp [loadData, preparePackForLoad, hp, hfull] at hmem
        rcases hmem with h | h
        · exact h
        · exact hrest p h
      · intro l' rest' heq
        simp [loadData, preparePackForLoad, hp, hfull] at heq
        rw [hp] at hfit
        simp [freeSpace, hfull] at hfit
        omega
      · simp [loadData, preparePackForLoad, hp, hfull]
    · rw [hp] at hfit
      simp [freeSpace, hfull] at hfit
      refine ⟨⟨?_, ?_, ?_⟩, ?_⟩
      · simp [loadData, preparePackForLoad, hp, hfull, hsum]
        omega
      · intro p hmem
        simp [loadData, preparePackForLoad, hp, hfull] at hmem
        exact hrest p hmem
      · intro l' rest' heq
        simp [loadData, preparePackForLoad, hp, hfull] at heq
        omega
      · simp [loadData, preparePackForLoad, hp, hfull]

theorem loadDataSeq_inv (pss : Nat) (cs : List Nat) (s : LoadState)
    (hinv : LoadInv pss s) (hv : validBatches pss s cs = true) :
    LoadInv pss (loadDataSeq pss s cs)
      ∧ (loadDataSeq pss s cs).hdr_nr = s.hdr_nr + cs.sum := by
  induction cs generalizing s with
  | nil => exact ⟨hinv, by simp [loadDataSeq]⟩
  | cons c cs ih =>
    simp only [validBatches, Bool.and_eq_true, decide_eq_true_eq] at hv
    obtain ⟨⟨hc, hfit⟩, hv⟩ := hv
    have step := loadData_inv_step pss s c hinv hc hfit
    have ihh := ih (loadData pss s c) step.1 hv
    refine ⟨ihh.1, ?_⟩
    have : loadDataSeq pss s (c :: cs) = loadDataSeq pss (loadData pss s c) cs := rfl
    rw [this, ihh.2, step.2, List.sum_cons]
    omega

theorem loadInv_length_eq_ceil (pss : Nat) (s : LoadState) (hinv : LoadInv pss s) :
    s.packs.length = (s.hdr_nr + 2 ^ pss - 1) / 2 ^ pss := by
  obtain ⟨hsum, htail, hlast⟩ := hinv
  have hcap : 0 < 2 ^ pss := Nat.pos_pow_of_pos pss (by norm_num)
  cases hp : s.packs with
  | nil =>
    rw [hp] at hsum
    simp only [List.sum_nil] at hsum
    rw [hsum]
    simp [Nat.div_eq_of_lt (show 2 ^ pss - 1 < 2 ^ pss by omega)]
  | cons l rest =>
    have hl := hlast l rest hp
    have hrest : ∀ p ∈ rest, p = 2 ^ pss := fun p hmem => htail p (by rw [hp]; exact hmem)
    have hrsum := sum_eq_length_mul_of_all_eq (2 ^ pss) rest hrest
    rw [hp, List.sum_cons, hrsum] at hsum
    have hrw : s.hdr_nr + 2 ^ pss - 1 = (l - 1) + (rest.length + 1) * 2 ^ pss := by
      rw [hsum, Nat.succ_mul]
      omega
    rw [hrw, Nat.add_mul_div_right _ _ hcap, Nat.div_eq_of_lt (show l - 1 < 2 ^ pss by omega)]
    simp

/-- C1 (amended): for every sequence of `LoadData` calls on an empty column
in which each call loads at least one row and no call overflows the capacity
of the pack it loads into (the loader feeds `LoadData` batches chunked to
the pack capacity): afterwards `hdr.nr = R`, the pack count equals
`⌈R / (1 <<< pss)⌉`, every pack except possibly the last is exactly full, and
`PreparePackForLoad` appends a new DPN exactly when `m_idx` is empty or the
last pack is full (otherwise the last pack is shadowed and extended). -/
theorem loadData_row_accounting (pss : Nat) (cs : List Nat)
    (h : validBatches pss ⟨0, []⟩ cs = true) :
    (loadDataSeq pss ⟨0, []⟩ cs).hdr_nr = cs.sum
    ∧ (loadDataSeq pss ⟨0, []⟩ cs).packs.length = (cs.sum + 2 ^ pss - 1) / 2 ^ pss
    ∧ (∀ p ∈ (loadDataSeq pss ⟨0, []⟩ cs).packs.tail, p = 2 ^ pss)
    ∧ (∀ packs, (preparePackForLoad pss packs).2 = true ↔
        packs = [] ∨ ∃ rest, packs = 2 ^ pss :: rest) := by
  have base : LoadInv pss ⟨0, []⟩ := ⟨rfl, by simp, fun l rest h => by cases h⟩
  have main := loadDataSeq_inv pss cs ⟨0, []⟩ base h
  have hnr : (loadDataSeq pss ⟨0, []⟩ cs).hdr_nr = cs.sum := by simpa using main.2
  refine ⟨hnr, ?_, main.1.2.1, ?_⟩
  · rw [← hnr]
    exact loadInv_length_eq_ceil pss _ main.1
  · intro packs
    cases packs with
    | nil => simp [preparePackForLoad]
    | cons l rest =>
      by_cases hl : l = 2 ^ pss
      · subst hl; simp [preparePackForLoad]
      · simp [preparePackForLoad, hl]

/-- C1 (witness): two chunked batches (2 rows then 1 row) at capacity 2 yield
`hdr.nr = 3` over `⌈3/2⌉ = 2` packs. -/
theorem loadData_row_accounting_witness :
    validBatches 1 ⟨0, []⟩ [2, 1] = true
    ∧ (loadDataSeq 1 ⟨0, []⟩ [2, 1]).hdr_nr = 3
    ∧ (loadDataSeq 1 ⟨0, []⟩ [2, 1]).packs.length = 2 := by
  have h := loadData_row_accounting 1 [2, 1] (by decide)
  exact ⟨by decide, by simpa using h.1, by simpa using h.2.1⟩

/-- C1 (counterexample): a single `LoadData` call of 3 rows on an empty
column with `pss = 1` (pack capacity 2) loads the whole batch into one pack:
`hdr.nr = 3` but `hdr.np = 1`, not `⌈3 / 2⌉ = 2`, refuting the claim for
unrestricted call sequences. -/
theorem loadData_unchunked_batch_cex :
    (loadDataSeq 1 ⟨0, []⟩ [3]).hdr_nr = 3
    ∧ (loadDataSeq 1 ⟨0, []⟩ [3]).packs.length = 1
    ∧ (3 + 2 ^ 1 - 1) / 2 ^ 1 = 2
    ∧ (loadDataSeq 1 ⟨0, []⟩ [3]).packs.length ≠ (3 + 2 ^ 1 - 1) / 2 ^ 1 := by
  decide

theorem scaleUpLoop_rounded (k : Nat) : ∀ (vv : Int) (r : Bool),
    (scaleUpLoop r vv k).2 = r := by
  induction k with
  | zero => intro vv r; rfl
  | succ k ih =>
    intro vv r
    simp only [scaleUpLoop]
    split_ifs with h1 h2
    · rfl
    · rfl
    · exact ih (vv * 10) r

theorem scaleUpLoop_result_cases (k : Nat) : ∀ (vv : Int) (r : Bool),
    (scaleUpLoop r vv k).1 = vv * 10 ^ k
      ∨ (scaleUpLoop r vv k).1 = MINUS_INF_64
      ∨ (scaleUpLoop r vv k).1 = PLUS_INF_64 := by
  induction k with
  | zero => intro vv r; left; simp [scaleUpLoop]
  | succ k ih =>
    intro vv r
    simp only [scaleUpLoop]
    split_ifs with h1 h2
    · right; left; rfl
    · right; right; rfl
    · rcases ih (vv * 10) r with h | h
      · left
        rw [h]
        ring
      · right; exact h

theorem scaleUpLoop_no_overflow (k : Nat) : ∀ (vv : Int) (r : Bool),
    vv.natAbs * 10 ^ k ≤ 9223372036854775807 →
    scaleUpLoop r vv k = (vv * 10 ^ k, r) := by
  induction k with
  | zero =>
    intro vv r _
    simp [scaleUpLoop]
  | succ k ih =>
    intro vv r h
    have h10 : (10 : Nat) ≤ 10 ^ (k + 1) :=
      calc (10 : Nat) = 10 ^ 1 := (pow_one 10).symm
      _ ≤ 10 ^ (k + 1) := Nat.pow_le_pow_right (by norm_num) (by omega)
    have hb : vv.natAbs * 10 ≤ 9223372036854775807 :=
      calc vv.natAbs * 10 ≤ vv.natAbs * 10 ^ (k + 1) := Nat.mul_le_mul_left _ h10
      _ ≤ _ := h
    have hm : MINUS_INF_64.tdiv 10 = -922337203685477580 := by decide
    have hp : PLUS_INF_64.tdiv 10 = 922337203685477580 := by decide
    simp only [scaleUpLoop, hm, hp]
    rw [if_neg (by omega), if_neg (by omega)]
    have harg : (vv * 10).natAbs * 10 ^ k ≤ 9223372036854775807 := by
      rw [Int.natAbs_mul]
      have he : vv.natAbs * (10 : Int).natAbs * 10 ^ k = vv.natAbs * 10 ^ (k + 1) := by
        show vv.natAbs * 10 * 10 ^ k = vv.natAbs * 10 ^ (k + 1)
        ring
      rw [he]
      exact h
    rw [ih (vv * 10) r harg]
    have he2 : vv * 10 * 10 ^ k = vv * 10 ^ (k + 1) := by ring
    rw [he2]

theorem tdiv_tdiv_of_nonneg (a : Int) {m n : Int} (hm : 0 ≤ m) (hn : 0 ≤ n) :
    (a.tdiv m).tdiv n = a.tdiv (m * n) := by
  lift m to Nat using hm
  lift n to Nat using hn
  have hmn : (m : Int) * (n : Int) = ((m * n : Nat) : Int) := by push_cast; ring
  rcases Int.eq_nat_or_neg a with ⟨b, rfl | rfl⟩
  · rw [hmn]
    show Int.ofNat (b / m / n) = Int.ofNat (b / (m * n))
    rw [Nat.div_div_eq_div_mul]
  · rw [Int.neg_tdiv, Int.neg_tdiv, Int.neg_tdiv, hmn]
    congr 1
    show Int.ofNat (b / m / n) = Int.ofNat (b / (m * n))
    rw [Nat.div_div_eq_div_mul]

theorem dvd_pow_succ_iff_step (k : Nat) (vv : Int) :
    ((10 : Int) ^ (k + 1) ∣ vv) ↔ (vv.tmod 10 = 0 ∧ (10 : Int) ^ k ∣ vv.tdiv 10) := by
  constructor
  · intro h
    have h10 : (10 : Int) ∣ vv :=
      dvd_trans (dvd_pow_self 10 (Nat.succ_ne_zero k)) h
    refine ⟨Int.tmod_eq_zero_of_dvd h10, ?_⟩
    obtain ⟨u, hu⟩ := h
    have htd : vv.tdiv 10 = 10 ^ k * u := by
      rw [hu, pow_succ, show (10 : Int) ^ k * 10 * u = 10 * (10 ^ k * u) by ring]
      exact Int.mul_tdiv_cancel_left _ (by norm_num)
    rw [htd]
    exact dvd_mul_right _ _
  · rintro ⟨hmod, hdvd⟩
    have h10 : (10 : Int) ∣ vv := Int.dvd_of_tmod_eq_zero hmod
    obtain ⟨w, hw⟩ := h10
    have htd : vv.tdiv 10 = w := by
      rw [hw]
      exact Int.mul_tdiv_cancel_left _ (by norm_num)
    rw [htd] at hdvd
    obtain ⟨u, hu⟩ := hdvd
    refine ⟨u, ?_⟩
    rw [hw, hu, pow_succ]
    ring

theorem scaleDownLoop_spec (k : Nat) : ∀ (vv : Int) (r : Bool),
    scaleDownLoop r vv k
      = (vv.tdiv ((10 : Int) ^ k), r || decide (¬ (10 : Int) ^ k ∣ vv)) := by
  induction k with
  | zero =>
    intro vv r
    simp [scaleDownLoop]
  | succ k ih =>
    intro vv r
    simp only [scaleDownLoop]
    rw [ih]
    have h1 : (vv.tdiv 10).tdiv ((10 : Int) ^ k) = vv.tdiv ((10 : Int) ^ (k + 1)) := by
      rw [tdiv_tdiv_of_nonneg vv (by norm_num) (by positivity),
        show (10 : Int) * 10 ^ k = 10 ^ (k + 1) by ring]
    have hiff : ((vv.tmod 10 ≠ 0) ∨ ¬ (10 : Int) ^ k ∣ vv.tdiv 10)
        ↔ ¬ (10 : Int) ^ (k + 1) ∣ vv := by
      rw [dvd_pow_succ_iff_step]
      constructor
      · rintro (h | h) ⟨h1', h2'⟩
        · exact h h1'
        · exact h h2'
      · intro h
        by_cases hmod : vv.tmod 10 = 0
        · right
          intro hd
          exact h ⟨hmod, hd⟩
        · left; exact hmod
    have h2 : ((r || decide (vv.tmod 10 ≠ 0)) || decide (¬ (10 : Int) ^ k ∣ vv.tdiv 10))
        = (r || decide (¬ (10 : Int) ^ (k + 1) ∣ vv)) := by
      cases r
      · simp only [Bool.false_or, ← Bool.decide_or]
        rw [decide_eq_decide]
        exact hiff
      · simp
    rw [h1, h2]

/-- C3 (amended): in the integer scale-reconciliation path of `EncodeValue64`,
the multiply loop yields `vv * 10 ^ (dplaces - vp)` whenever that product is
within the 64-bit range and otherwise saturates to `±INF_64` — and on both
outcomes of the multiply loop `rounded` stays false, in particular the
saturating early returns do NOT set it; the divide loop yields the truncated
quotient by `10 ^ (vp - dplaces)` and sets `rounded` exactly when a nonzero
remainder is dropped, i.e. when the power of ten does not divide `vv`.  The
function is total: no exception is thrown. -/
theorem encodeValue64_scale_behavior (vv : Int) (vp dplaces : Nat) :
    (vp < dplaces →
      (encodeValue64Scale vv vp dplaces).2 = false
      ∧ ((encodeValue64Scale vv vp dplaces).1 = vv * 10 ^ (dplaces - vp)
          ∨ (encodeValue64Scale vv vp dplaces).1 = MINUS_INF_64
          ∨ (encodeValue64Scale vv vp dplaces).1 = PLUS_INF_64)
      ∧ (vv.natAbs * 10 ^ (dplaces - vp) ≤ 9223372036854775807 →
          (encodeValue64Scale vv vp dplaces).1 = vv * 10 ^ (dplaces - vp)))
    ∧ (dplaces ≤ vp →
      (encodeValue64Scale vv vp dplaces).1 = vv.tdiv ((10 : Int) ^ (vp - dplaces))
      ∧ ((encodeValue64Scale vv vp dplaces).2 = true
          ↔ ¬ (10 : Int) ^ (vp - dplaces) ∣ vv)) := by
  constructor
  · intro h
    unfold encodeValue64Scale
    rw [if_pos h]
    refine ⟨scaleUpLoop_rounded _ _ _, scaleUpLoop_result_cases _ _ _, fun hb => ?_⟩
    rw [scaleUpLoop_no_overflow _ _ _ hb]
  · intro h
    unfold encodeValue64Scale
    rw [if_neg (by omega), scaleDownLoop_spec]
    exact ⟨rfl, by simp⟩

/-- C3 (witness): dividing 105 at scale 2 down to scale 0 rounds (remainder 5
dropped) and yields 1; multiplying 5 from scale 0 up to scale 2 yields 500
without rounding. -/
theorem encodeValue64_scale_behavior_witness :
    (encodeValue64Scale 105 2 0).1 = 1
    ∧ (encodeValue64Scale 105 2 0).2 = true
    ∧ (encodeValue64Scale 5 0 2).1 = 500
    ∧ (encodeValue64Scale 5 0 2).2 = false := by
  have h1 := (encodeValue64_scale_behavior 105 2 0).2 (by omega)
  have h2 := (encodeValue64_scale_behavior 5 0 2).1 (by omega)
  refine ⟨?_, ?_, ?_, ?_⟩
  · rw [h1.1]; decide
  · rw [h1.2]
    norm_num
  · have := h2.2.2 (by norm_num)
    rw [this]
    norm_num
  · exact h2.1

/-- C3 (counterexample): the scale-up loop started at `PLUS_INF_64` with one
digit to go saturates to `PLUS_INF_64` and leaves `rounded = false` — the
saturating early returns (rc_attr.cpp:691-692) never set the `rounded`
out-parameter, refuting the claim that saturation sets it. -/
theorem encodeValue64_saturation_not_rounded_cex :
    (encodeValue64Scale PLUS_INF_64 0 1).1 = PLUS_INF_64
    ∧ (encodeValue64Scale PLUS_INF_64 0 1).2 = false := by
  decide

theorem foldl_compressed_acc (l : List DPN) (a : Nat) :
    l.foldl (fun sum d => if d.addr != DPN_INVALID_ADDR then sum + d.len else sum) a
      = a + ((l.filter (fun d => d.addr != DPN_INVALID_ADDR)).map DPN.len).sum := by
  induction l generalizing a with
  | nil => simp
  | cons d ds ih =>
    cases hb : (d.addr != DPN_INVALID_ADDR) with
    | false =>
      simp only [List.foldl_cons, List.filter_cons]
      rw [if_neg (by simp [hb]), if_neg (by simp [hb])]
      exact ih a
    | true =>
      simp only [List.foldl_cons, List.filter_cons]
      rw [if_pos hb, if_pos hb, ih (a + d.len)]
      simp only [List.map_cons, List.sum_cons]
      omega

theorem compressedSizeAcc_eq (dpns : List DPN) :
    compressedSizeAcc dpns
      = ((dpns.filter (fun d => d.addr != DPN_INVALID_ADDR)).map DPN.len).sum := by
  unfold compressedSizeAcc
  rw [foldl_compressed_acc dpns 0, Nat.zero_add]

/-- C6: `SaveVersion` returns false and writes no version file exactly when
no change was made (`no_change` still true and no local DPN in `m_idx`);
otherwise the persisted header carries `np` equal to the index size at the
moment of writing (granting the creation-time invariant that an empty index
goes with `np = 0`), and for a non-empty column `compressed_size` is the sum
of `dpn.len` over the DPNs whose `addr` is not `DPN_INVALID_ADDR`. -/
theorem saveVersion_spec (s : AttrVersionState) (h0 : s.m_idx = [] → s.hdr.np = 0) :
    ((saveVersion s).1 = none ↔
      (s.no_change = true ∧ s.m_idx.all (fun d => !d.isLocal) = true))
    ∧ (∀ hdr1 idx1, (saveVersion s).1 = some (hdr1, idx1) →
        hdr1.np = idx1.length
        ∧ (s.m_idx ≠ [] →
            hdr1.compressed_size
              = ((idx1.filter (fun d => d.addr != DPN_INVALID_ADDR)).map DPN.len).sum)) := by
  have hall : (s.no_change && !(s.m_idx.any fun d => d.isLocal)) = true
      ↔ (s.no_change = true ∧ s.m_idx.all (fun d => !d.isLocal) = true) := by
    simp [List.any_eq_true, List.all_eq_true]
  constructor
  · by_cases hcond : (s.no_change && !(s.m_idx.any fun d => d.isLocal)) = true
    · refine iff_of_true ?_ (hall.mp hcond)
      simp [saveVersion, hcond]
    · refine iff_of_false ?_ (fun hr => hcond (hall.mpr hr))
      simp [saveVersion, hcond]
  · intro hdr1 idx1 heq
    by_cases hcond : (s.no_change && !(s.m_idx.any fun d => d.isLocal)) = true
    · simp [saveVersion, hcond] at heq
    · have hres : (saveVersion s).1
          = some ((if s.m_idx.isEmpty then s.hdr
              else { s.hdr with
                np := (s.m_idx.map saveVersionDpn).length
                compressed_size := compressedSizeAcc (s.m_idx.map saveVersionDpn) }),
              s.m_idx.map saveVersionDpn) := by
        simp [saveVersion, hcond]
      rw [hres, Option.some.injEq, Prod.mk.injEq] at heq
      obtain ⟨h1, h2⟩ := heq
      subst h2
      subst h1
      by_cases hemp : s.m_idx = []
      · refine ⟨?_, fun hne => absurd hemp hne⟩
        simp [hemp, h0 hemp]
      · have hie : s.m_idx.isEmpty = false := by simpa using hemp
        refine ⟨?_, fun _ => ?_⟩
        · simp [hie]
        · simp [hie, compressedSizeAcc_eq]

/-- C6 (witness): an unmodified empty column is not persisted, and a column
with one freshly written local DPN persists `np = 1` and `compressed_size`
equal to that DPN's `len`. -/
theorem saveVersion_spec_witness :
    (saveVersion saveVersionEmptyState).1 = none
    ∧ (∀ hdr1 idx1,
        (saveVersion saveVersionWitnessState).1 = some (hdr1, idx1) →
        hdr1.np = idx1.length) := by
  constructor
  · exact (saveVersion_spec saveVersionEmptyState (fun _ => rfl)).1.mpr (by decide)
  · intro hdr1 idx1 heq
    exact ((saveVersion_spec saveVersionWitnessState
      (by intro h; cases h)).2 hdr1 idx1 heq).1

theorem encodeValue_T_invariant (v0 : Nat) (c0 : List Nat) (st : DictState)
    (sstr : List Nat) (nv : Bool)
    (h : (st.changed = false ∧ st.dict_ver = v0 ∧ st.cacheVers = c0)
      ∨ (st.changed = true ∧ st.dict_ver = v0 + 1 ∧ (v0 + 1) ∈ st.cacheVers)) :
    ((encodeValue_T st sstr nv).2.changed = false
        ∧ (encodeValue_T st sstr nv).2.dict_ver = v0
        ∧ (encodeValue_T st sstr nv).2.cacheVers = c0)
      ∨ ((encodeValue_T st sstr nv).2.changed = true
        ∧ (encodeValue_T st sstr nv).2.dict_ver = v0 + 1
        ∧ (v0 + 1) ∈ (encodeValue_T st sstr nv).2.cacheVers) := by
  unfold encodeValue_T
  cases hfind : st.dict.findIdx? (fun t => t == sstr) with
  | some code => simpa [hfind] using h
  | none =>
    cases nv with
    | false => simpa [hfind] using h
    | true =>
      rcases h with ⟨hch, hv, hc⟩ | ⟨hch, hv, hc⟩
      · right
        simp [hfind, hch, hv, hc]
      · right
        simp only [hfind, hch]
        simp [hv]
        exact hc

theorem encodeValueSeq_invariant (v0 : Nat) (c0 : List Nat)
    (ops : List (List Nat × Bool)) : ∀ st : DictState,
    ((st.changed = false ∧ st.dict_ver = v0 ∧ st.cacheVers = c0)
      ∨ (st.changed = true ∧ st.dict_ver = v0 + 1 ∧ (v0 + 1) ∈ st.cacheVers)) →
    (((encodeValueSeq st ops).changed = false ∧ (encodeValueSeq st ops).dict_ver = v0
        ∧ (encodeValueSeq st ops).cacheVers = c0)
      ∨ ((encodeValueSeq st ops).changed = true
        ∧ (encodeValueSeq st ops).dict_ver = v0 + 1
        ∧ (v0 + 1) ∈ (encodeValueSeq st ops).cacheVers)) := by
  induction ops with
  | nil => intro st h; exact h
  | cons op ops ih =>
    intro st h
    rcases op with ⟨sstr, nv⟩
    exact ih _ (encodeValue_T_invariant v0 c0 st sstr nv h)

/-- C7: across any sequence of `EncodeValue_T` insertions performed in one
transaction that starts with an unchanged dictionary, `hdr.dict_ver` is
non-decreasing and rises at most once, by exactly one: it rises exactly when
some call actually modified the dictionary (missing string with `new_val`),
the first such call doing the clone-and-bump and installing the clone in the
cache under the new version before returning the new code; subsequent
insertions reuse the changed clone without bumping again. -/
theorem dict_ver_bumps_once (st : DictState) (ops : List (List Nat × Bool))
    (h : st.changed = false) :
    st.dict_ver ≤ (encodeValueSeq st ops).dict_ver
    ∧ (encodeValueSeq st ops).dict_ver ≤ st.dict_ver + 1
    ∧ ((encodeValueSeq st ops).changed = true
        ↔ (encodeValueSeq st ops).dict_ver = st.dict_ver + 1)
    ∧ ((encodeValueSeq st ops).dict_ver = st.dict_ver + 1 →
        (st.dict_ver + 1) ∈ (encodeValueSeq st ops).cacheVers) := by
  have inv := encodeValueSeq_invariant st.dict_ver st.cacheVers ops st (Or.inl ⟨h, rfl, rfl⟩)
  rcases inv with ⟨h1, h2, h3⟩ | ⟨h1, h2, h3⟩
  · refine ⟨by omega, by omega, ?_, ?_⟩
    · constructor
      · intro hc
        exact absurd hc (by simp [h1])
      · intro hv
        exact absurd hv (by omega)
    · intro hv
      exact absurd hv (by omega)
  · exact ⟨by omega, by omega, iff_of_true h1 h2, fun _ => h3⟩

/-- C7 (witness): inserting the two missing strings "b" and "c" into the
dictionary `{"a"}` at version 1 bumps the version to 2 once and installs
version 2 in the cache. -/
theorem dict_ver_bumps_once_witness :
    (encodeValueSeq ⟨[[97]], false, 1, []⟩ [([98], true), ([99], true)]).dict_ver = 2
    ∧ 2 ∈ (encodeValueSeq ⟨[[97]], false, 1, []⟩ [([98], true), ([99], true)]).cacheVers := by
  have h := dict_ver_bumps_once ⟨[[97]], false, 1, []⟩ [([98], true), ([99], true)] rfl
  have hv : (encodeValueSeq ⟨[[97]], false, 1, []⟩ [([98], true), ([99], true)]).dict_ver = 2 := by
    decide
  exact ⟨hv, by simpa using h.2.2.2 (by decide)⟩

end StoneDB
